import Mathlib

/-!
# float_to_string

A shallow embedding of `scripts/float_to_string.cpp`: the program reads a file of
4-byte `float` records and prints one line of text per record.

The program is twenty lines long and delegates the conversion of a `float` to text
to `std::to_chars` of the C++ standard library.  That conversion is not part of the
program, so it is a parameter `text : float → List Byte` of every definition below:
`text f` is the character sequence the library produces for `f` when the destination
is large enough.  Everything the program itself does (argument check, opening the
file, the read loop, the 64-byte line buffer, the unchecked store of the line feed,
the `fwrite`, the exit code) is modelled explicitly.
-/

namespace FloatToString

/-! ## Data model -/

/-- A C++ `char`: one 8-bit byte. -/
abbrev Byte := Fin 256

/-- The line feed character, written `'\n'` in the source. -/
def LF : Byte := 10

/-- The object representation of a `float` variable: `sizeof(float) = 4` bytes in
memory order.  `in.read((char*)&f, sizeof(f))` stores into these bytes directly, so no
byte order is chosen here. -/
structure float where
  b0 : Byte
  b1 : Byte
  b2 : Byte
  b3 : Byte
deriving DecidableEq, Repr

/-- The file system as the program sees it: a path either cannot be opened for
reading (`none`) or holds a finite sequence of bytes. -/
abbrev FileSystem := String → Option (List Byte)

/-- The state of `std::ifstream in`: `ok` is `!in.fail()`, `rest` the bytes not yet
extracted. -/
structure ifstream where
  ok : Bool
  rest : List Byte
deriving DecidableEq, Repr

/-- The constructor call `std::ifstream in(argv[1], std::ios::binary)`: when the file
cannot be opened the stream is created with `failbit` set. -/
def ifstream.init (fs : FileSystem) (path : String) : ifstream :=
  match fs path with
  | some bytes => ⟨true, bytes⟩
  | none => ⟨false, []⟩

/-- The call `in.read((char*)&f, sizeof(f))`.  On a stream that has already failed
nothing is extracted.  Otherwise up to four bytes are extracted and stored into `f`
from its first byte on; when fewer than four are available the stream takes all of
them and sets `eofbit | failbit`. -/
def ifstream.read (s : ifstream) (f : float) : ifstream × float :=
  if s.ok then
    match s.rest with
    | a :: b :: c :: d :: rest => (⟨true, rest⟩, ⟨a, b, c, d⟩)
    | [a, b, c] => (⟨false, []⟩, { f with b0 := a, b1 := b, b2 := c })
    | [a, b] => (⟨false, []⟩, { f with b0 := a, b1 := b })
    | [a] => (⟨false, []⟩, { f with b0 := a })
    | [] => (⟨false, []⟩, f)
  else (s, f)

/-- The local array `char out[64]`; a cell is `none` while its value is
indeterminate. -/
abbrev Buffer := List (Option Byte)

/-- The value `std::to_chars` returns: `ptr` as an offset from `first`, and whether
`ec` equals `std::errc{}`. -/
structure to_chars_result where
  ptr : Nat
  success : Bool
deriving DecidableEq, Repr

/-- The call `std::to_chars(first, last, value)` on the buffer `out = [first, last)`,
by the library contract: when the text fits it is stored at the start of the range
and `ptr` is one past its end; otherwise `ec` is `value_too_large`, `ptr` is `last`
and the contents of the range are unspecified. -/
def to_chars (text : float → List Byte) (out : Buffer) (value : float) :
    to_chars_result × Buffer :=
  let s := text value
  if s.length ≤ out.length then
    (⟨s.length, true⟩, s.map some ++ out.drop s.length)
  else
    (⟨out.length, false⟩, List.replicate out.length none)

/-- Reads the first `count` cells of a buffer; `none` when one of them is outside the
buffer or indeterminate. -/
def readCells : Buffer → Nat → Option (List Byte)
  | _, 0 => some []
  | [], _ + 1 => none
  | none :: _, _ + 1 => none
  | some c :: cells, count + 1 => (readCells cells count).map (c :: ·)

/-- One iteration of the body of the `while` loop (source lines 16 to 19): the bytes
handed to `fwrite`, or `none` when the store `*result.ptr = '\n'` falls outside
`out`. -/
def body (text : float → List Byte) (f : float) : Option (List Byte) :=
  let out : Buffer := List.replicate 64 none
  let (result, out) := to_chars text out f
  if result.ptr < out.length then
    let out := out.set result.ptr (some LF)
    readCells out (result.ptr + 1)
  else none

/-- The loop `while (in.read((char*)&f, sizeof(f))) { ... }`, with the bytes written to
standard output so far as an accumulator.  The result is `none` when an iteration
stores outside `out`. -/
def loop (text : float → List Byte) (s : ifstream) (f : float) (stdout : List Byte) :
    Option (List Byte) :=
  if h : (s.read f).1.ok = true then
    have _progress : (s.read f).1.rest.length < s.rest.length := by
      obtain ⟨ok, rest⟩ := s
      rcases ok with _ | _
      · simp [ifstream.read] at h
      · rcases rest with _ | ⟨a, _ | ⟨b, _ | ⟨c, _ | ⟨d, rest⟩⟩⟩⟩
        all_goals first
          | (simp [ifstream.read] at h; done)
          | (simp [ifstream.read]; omega)
    match body text (s.read f).2 with
    | some line => loop text (s.read f).1 (s.read f).2 (stdout ++ line)
    | none => none
  else some stdout
termination_by s.rest.length

/-- What a run of the program leaves behind. -/
structure Outcome where
  code : Int
  stdout : List Byte
  stderr : String
  opened : List String
deriving DecidableEq, Repr

/-- The `%s` conversion of `fprintf`; a null pointer (which `argv[0]` is when `argc`
is 0) is rendered the way glibc renders it. -/
def percent_s : Option String → String
  | some s => s
  | none => "(null)"

/-- The text of `fprintf(stderr, "Usage: %s <input_float_bin_file>\n", argv[0])`. -/
def usage (argv0 : Option String) : String :=
  "Usage: " ++ percent_s argv0 ++ " <input_float_bin_file>\n"

/-- The function `main`.  `argc` is the length of `argv`; `f0` is the indeterminate
initial content of the local `float f`.  The vector `buf` of the source is never used
and has no counterpart here.  Falling off the end of `main` returns 0. -/
def main (text : float → List Byte) (f0 : float) (fs : FileSystem) (argv : List String) :
    Option Outcome :=
  if h : argv.length ≠ 2 then
    some ⟨1, [], usage argv.head?, []⟩
  else
    let path := argv.get ⟨1, by omega⟩
    let s := ifstream.init fs path
    match loop text s f0 [] with
    | some out => some ⟨0, out, "", [path]⟩
    | none => none

/-! ## Vocabulary of the statements -/

/-- The four bytes a record occupies in the input file. -/
def float.bytes (r : float) : List Byte := [r.b0, r.b1, r.b2, r.b3]

/-- The content of a file that holds the records `rs` and nothing else. -/
def encode (rs : List float) : List Byte := rs.flatMap float.bytes

/-- The complete 4-byte records at the start of a byte sequence, in order; a tail of
fewer than four bytes yields no record. -/
def records : List Byte → List float
  | a :: b :: c :: d :: rest => ⟨a, b, c, d⟩ :: records rest
  | _ => []

/-- The line of one record: its text followed by one line feed. -/
def line (text : float → List Byte) (r : float) : List Byte := text r ++ [LF]

/-- The lines of the records `rs`, concatenated in order. -/
def lines (text : float → List Byte) (rs : List float) : List Byte :=
  rs.flatMap (line text)

/-- A stand-in for the library conversion, used to instantiate the statements on
concrete files: it prints `1`, with a minus sign when the top bit of the last byte is
set. -/
def sampleText (f : float) : List Byte :=
  if f.b3.val < 128 then [49] else [45, 49]

/-! ## Lemmas on the line buffer -/

theorem readCells_stored (s : List Byte) (c : Byte) (tail : Buffer) (h : tail ≠ []) :
    readCells ((s.map some ++ tail).set s.length (some c)) (s.length + 1) = some (s ++ [c]) := by
  induction s with
  | nil =>
    cases tail with
    | nil => exact absurd rfl h
    | cons t ts => simp [readCells]
  | cons a s ih =>
    show readCells (some a :: (s.map some ++ tail).set s.length (some c)) (s.length + 1 + 1)
      = some (a :: (s ++ [c]))
    rw [readCells, ih]
    rfl

theorem body_eq (text : float → List Byte) (f : float) (h : (text f).length < 64) :
    body text f = some (line text f) := by
  have hle : (text f).length ≤ 64 := by omega
  have hdrop : List.drop (text f).length (List.replicate 64 (none : Option Byte)) ≠ [] := by
    intro hnil
    have := congrArg List.length hnil
    simp at this
    omega
  simp only [body, to_chars, List.length_replicate, hle, if_true, List.length_append,
    List.length_map, List.length_drop]
  rw [if_pos (by omega)]
  exact readCells_stored (text f) LF _ hdrop

theorem body_overflow (text : float → List Byte) (f : float) (h : 64 ≤ (text f).length) :
    body text f = none := by
  by_cases h64 : (text f).length ≤ 64
  · simp [body, to_chars, h64]
    omega
  · simp [body, to_chars, h64]

/-! ## Lemmas on the read loop -/

theorem loop_failed (text : float → List Byte) (rest : List Byte) (f : float)
    (acc : List Byte) : loop text ⟨false, rest⟩ f acc = some acc := by
  rw [loop]
  simp [ifstream.read]

theorem loop_record (text : float → List Byte) (a b c d : Byte) (rest : List Byte)
    (f : float) (acc : List Byte) :
    loop text ⟨true, a :: b :: c :: d :: rest⟩ f acc =
      match body text ⟨a, b, c, d⟩ with
      | some l => loop text ⟨true, rest⟩ ⟨a, b, c, d⟩ (acc ++ l)
      | none => none := by
  rw [loop]
  simp [ifstream.read]

theorem loop_short (text : float → List Byte) (rest : List Byte) (h : rest.length < 4)
    (f : float) (acc : List Byte) : loop text ⟨true, rest⟩ f acc = some acc := by
  rw [loop]
  rcases rest with _ | ⟨a, _ | ⟨b, _ | ⟨c, _ | ⟨d, rest⟩⟩⟩⟩
  · simp [ifstream.read]
  · simp [ifstream.read]
  · simp [ifstream.read]
  · simp [ifstream.read]
  · simp at h
    omega

theorem loop_eq (text : float → List Byte) (htext : ∀ f, (text f).length < 64) :
    ∀ (bs : List Byte) (f : float) (acc : List Byte),
      loop text ⟨true, bs⟩ f acc = some (acc ++ lines text (records bs))
  | a :: b :: c :: d :: rest, f, acc => by
    rw [loop_record, body_eq text _ (htext _)]
    simp only [records, lines, List.flatMap_cons]
    rw [loop_eq text htext rest, List.append_assoc]
    rfl
  | [], f, acc => by rw [loop_short text _ (by simp)]; simp [records, lines]
  | [_], f, acc => by rw [loop_short text _ (by simp)]; simp [records, lines]
  | [_, _], f, acc => by rw [loop_short text _ (by simp)]; simp [records, lines]
  | [_, _, _], f, acc => by rw [loop_short text _ (by simp)]; simp [records, lines]

/-! ## Lemmas on records and lines -/

theorem records_encode_append (rs : List float) (tail : List Byte) (h : tail.length < 4) :
    records (encode rs ++ tail) = rs := by
  induction rs with
  | nil =>
    rcases tail with _ | ⟨a, _ | ⟨b, _ | ⟨c, _ | ⟨d, rest⟩⟩⟩⟩
    · simp [encode, records]
    · simp [encode, records]
    · simp [encode, records]
    · simp [encode, records]
    · simp at h
      omega
  | cons r rs ih =>
    have : encode (r :: rs) ++ tail = r.b0 :: r.b1 :: r.b2 :: r.b3 :: (encode rs ++ tail) := by
      simp [encode, float.bytes]
    rw [this, records, ih]

theorem records_length : ∀ bs : List Byte, (records bs).length = bs.length / 4
  | a :: b :: c :: d :: rest => by
    simp only [records, List.length_cons, records_length rest]
    omega
  | [] => by simp [records]
  | [_] => by simp [records]
  | [_, _] => by simp [records]
  | [_, _, _] => by simp [records]

theorem records_take : ∀ (bs : List Byte) (n k : Nat), bs.length = 4 * n + k → k < 4 →
    records (bs.take (4 * n)) = records bs
  | a :: b :: c :: d :: rest, n, k, hlen, hk => by
    obtain ⟨m, rfl⟩ : ∃ m, n = m + 1 := ⟨n - 1, by simp at hlen; omega⟩
    have h4 : 4 * (m + 1) = 4 * m + 1 + 1 + 1 + 1 := by ring
    rw [h4]
    simp only [List.take_succ_cons, records]
    rw [records_take rest m k (by simp at hlen; omega) hk]
  | [], n, k, hlen, hk => by simp [records]
  | [_], n, k, hlen, hk => by
    have : n = 0 := by simp at hlen; omega
    simp [this, records]
  | [_, _], n, k, hlen, hk => by
    have : n = 0 := by simp at hlen; omega
    simp [this, records]
  | [_, _, _], n, k, hlen, hk => by
    have : n = 0 := by simp at hlen; omega
    simp [this, records]

theorem count_lines (text : float → List Byte) (hLF : ∀ f, LF ∉ text f) (rs : List float) :
    (lines text rs).count LF = rs.length := by
  induction rs with
  | nil => simp [lines]
  | cons r rs ih =>
    have hr : (text r).count LF = 0 := List.count_eq_zero.mpr (hLF r)
    have hrest : (List.flatMap rs (line text)).count LF = rs.length := ih
    simp only [lines, List.flatMap_cons, line, List.count_append, hr, hrest, List.length_cons]
    simp
    omega

theorem count_lines_add (text : float → List Byte) (rs : List float) :
    (lines text rs).count LF = rs.length + (rs.map (fun r => (text r).count LF)).sum := by
  induction rs with
  | nil => simp [lines]
  | cons r rs ih =>
    have hrest : (List.flatMap rs (line text)).count LF
        = rs.length + (rs.map (fun r => (text r).count LF)).sum := ih
    simp only [lines, List.flatMap_cons, line, List.count_append, hrest, List.length_cons,
      List.map_cons, List.sum_cons]
    simp
    omega

/-! ## Lemmas on `main` -/

theorem main_run (text : float → List Byte) (htext : ∀ f, (text f).length < 64)
    (f0 : float) (fs : FileSystem) (prog path : String) (bs : List Byte)
    (hfile : fs path = some bs) :
    main text f0 fs [prog, path] = some ⟨0, lines text (records bs), "", [path]⟩ := by
  simp [main, ifstream.init, hfile, loop_eq text htext]

theorem main_unopened (text : float → List Byte) (f0 : float) (fs : FileSystem)
    (prog path : String) (hfile : fs path = none) :
    main text f0 fs [prog, path] = some ⟨0, [], "", [path]⟩ := by
  simp [main, ifstream.init, hfile, loop_failed]

theorem main_usage (text : float → List Byte) (f0 : float) (fs : FileSystem)
    (argv : List String) (h : argv.length ≠ 2) :
    main text f0 fs argv = some ⟨1, [], usage argv.head?, []⟩ := by
  simp [main, h]

/-- The line feeds of a run on a file of `4 * n` bytes: the `n` that `main` stores, one
after the text of each record, and those the library texts hold themselves. -/
theorem main_count_LF (text : float → List Byte) (htext : ∀ f, (text f).length < 64)
    (f0 : float) (fs : FileSystem) (prog path : String) (bs : List Byte) (n : Nat)
    (hlen : bs.length = 4 * n) (hfile : fs path = some bs) :
    (main text f0 fs [prog, path]).map (fun o => o.stdout.count LF)
      = some (n + ((records bs).map (fun r => (text r).count LF)).sum) := by
  rw [main_run text htext f0 fs prog path bs hfile]
  simp only [Option.map_some', count_lines_add, records_length, hlen]
  congr 2
  omega

theorem sampleText_length (f : float) : (sampleText f).length < 64 := by
  unfold sampleText
  split <;> simp

theorem sampleText_no_LF (f : float) : LF ∉ sampleText f := by
  unfold sampleText
  split <;> simp [LF]

/-! ## The driver: order, line count, partial tail, exit codes -/

/-- C3 (order preservation and line format): when the library text of every record fits
the 64-byte buffer with room for the line feed, a file made of the complete records
`rs` gives on standard output exactly the text of each record followed by one line
feed, in the order of the records; nothing goes to the diagnostic stream and the exit
code is 0. -/
theorem order_preservation (text : float → List Byte) (htext : ∀ f, (text f).length < 64)
    (f0 : float) (fs : FileSystem) (prog path : String) (rs : List float)
    (hfile : fs path = some (encode rs)) :
    main text f0 fs [prog, path]
      = some ⟨0, rs.flatMap (fun r => text r ++ [LF]), "", [path]⟩ := by
  have h := main_run text htext f0 fs prog path (encode rs) hfile
  have hrec : records (encode rs) = rs := by
    simpa using records_encode_append rs [] (by simp)
  rw [h, hrec]
  rfl

theorem order_preservation_witness :
    (∀ f, (sampleText f).length < 64) ∧
    main sampleText ⟨0, 0, 0, 0⟩ (fun _ => some [0, 0, 128, 63, 0, 0, 0, 128])
        ["float_to_string", "in.bin"]
      = some ⟨0, [49, 10, 45, 49, 10], "", ["in.bin"]⟩ :=
  ⟨sampleText_length,
   order_preservation sampleText sampleText_length ⟨0, 0, 0, 0⟩ _ "float_to_string" "in.bin"
     [⟨0, 0, 128, 63⟩, ⟨0, 0, 0, 128⟩] rfl⟩

/-- C5 (partial trailing record ignored): when the library text of a record fits the
buffer with room for the line feed and holds no line feed, a file of `4 * n + k` bytes
with `1 ≤ k ≤ 3` gives the same outcome as its first `4 * n` bytes, whatever the local
`f` held at the start: exit code 0, the lines of the `n` complete records and nothing
else, `n` line feeds. -/
theorem partial_tail_ignored (text : float → List Byte)
    (htext : ∀ f, (text f).length < 64) (hLF : ∀ f, LF ∉ text f)
    (f0 f1 : float) (fs fs1 : FileSystem) (prog path : String)
    (bs : List Byte) (n k : Nat) (hk : 1 ≤ k ∧ k ≤ 3) (hlen : bs.length = 4 * n + k)
    (hfile : fs path = some bs) (hfile1 : fs1 path = some (bs.take (4 * n))) :
    main text f0 fs [prog, path] = main text f1 fs1 [prog, path] ∧
    main text f0 fs [prog, path]
      = some ⟨0, (records (bs.take (4 * n))).flatMap (fun r => text r ++ [LF]), "", [path]⟩ ∧
    (main text f0 fs [prog, path]).map (fun o => o.stdout.count LF) = some n := by
  have hrec : records (bs.take (4 * n)) = records bs := records_take bs n k hlen (by omega)
  have h0 := main_run text htext f0 fs prog path bs hfile
  have h1 := main_run text htext f1 fs1 prog path _ hfile1
  refine ⟨?_, ?_, ?_⟩
  · rw [h0, h1, hrec]
  · rw [h0, hrec]
    rfl
  · rw [h0]
    simp only [Option.map_some', count_lines text hLF, records_length, hlen]
    congr 1
    omega

theorem partial_tail_ignored_witness :
    main sampleText ⟨0, 0, 0, 0⟩ (fun _ => some [0, 0, 0, 128, 7, 9]) ["float_to_string", "in.bin"]
      = main sampleText ⟨1, 2, 3, 4⟩ (fun _ => some [0, 0, 0, 128]) ["float_to_string", "in.bin"] ∧
    main sampleText ⟨0, 0, 0, 0⟩ (fun _ => some [0, 0, 0, 128, 7, 9]) ["float_to_string", "in.bin"]
      = some ⟨0, [45, 49, 10], "", ["in.bin"]⟩ ∧
    (main sampleText ⟨0, 0, 0, 0⟩ (fun _ => some [0, 0, 0, 128, 7, 9])
        ["float_to_string", "in.bin"]).map (fun o => o.stdout.count LF) = some 1 :=
  partial_tail_ignored sampleText sampleText_length sampleText_no_LF ⟨0, 0, 0, 0⟩ ⟨1, 2, 3, 4⟩
    _ _ "float_to_string" "in.bin" [0, 0, 0, 128, 7, 9] 1 2 (by decide) rfl rfl rfl

/-- C7 (usage error): for every argument vector whose length `argc` is not 2, `main`
returns 1, writes the usage message to the diagnostic stream, writes nothing to
standard output and opens no file. -/
theorem usage_error (text : float → List Byte) (f0 : float) (fs : FileSystem)
    (argv : List String) (hargc : argv.length ≠ 2) :
    main text f0 fs argv
      = some ⟨1, [], "Usage: " ++ percent_s argv.head? ++ " <input_float_bin_file>\n", []⟩ :=
  main_usage text f0 fs argv hargc

theorem usage_error_witness :
    main sampleText ⟨0, 0, 0, 0⟩ (fun _ => some [0, 0, 128, 63]) ["float_to_string"]
      = some ⟨1, [], "Usage: float_to_string <input_float_bin_file>\n", []⟩ :=
  usage_error sampleText ⟨0, 0, 0, 0⟩ _ ["float_to_string"] (by decide)

/-- C10 (normal completion exits 0): when the library text of every record fits the
buffer, `main` called with one argument that names a readable file returns 0 whatever
the file holds; for an empty file it also writes nothing. -/
theorem normal_exit_zero (text : float → List Byte) (htext : ∀ f, (text f).length < 64)
    (f0 : float) (fs : FileSystem) (prog path : String) (bs : List Byte)
    (hfile : fs path = some bs) :
    (main text f0 fs [prog, path]).map Outcome.code = some 0 ∧
    (bs = [] → main text f0 fs [prog, path] = some ⟨0, [], "", [path]⟩) := by
  rw [main_run text htext f0 fs prog path bs hfile]
  refine ⟨rfl, ?_⟩
  intro hbs
  subst hbs
  rfl

theorem normal_exit_zero_witness :
    (main sampleText ⟨0, 0, 0, 0⟩ (fun _ => some []) ["float_to_string", "empty.bin"]).map
        Outcome.code = some 0 ∧
    (([] : List Byte) = [] →
      main sampleText ⟨0, 0, 0, 0⟩ (fun _ => some []) ["float_to_string", "empty.bin"]
        = some ⟨0, [], "", ["empty.bin"]⟩) :=
  normal_exit_zero sampleText sampleText_length ⟨0, 0, 0, 0⟩ _ "float_to_string" "empty.bin"
    [] rfl

/-! ## A file that cannot be opened -/

/-- C6, counterexample: with a file system in which no path can be opened, the run on
`missing.bin` ends with exit code 0 and an empty diagnostic stream, the very outcome
of a run on an empty file; so it is not the case that it exits non-zero or that it
emits a diagnostic. -/
theorem open_error_counterexample :
    main sampleText ⟨0, 0, 0, 0⟩ (fun _ => none) ["float_to_string", "missing.bin"]
      = some ⟨0, [], "", ["missing.bin"]⟩ ∧
    main sampleText ⟨0, 0, 0, 0⟩ (fun _ => none) ["float_to_string", "missing.bin"]
      = main sampleText ⟨0, 0, 0, 0⟩ (fun _ => some []) ["float_to_string", "missing.bin"] ∧
    ¬ ∃ o, main sampleText ⟨0, 0, 0, 0⟩ (fun _ => none) ["float_to_string", "missing.bin"]
          = some o ∧ (o.code ≠ 0 ∨ o.stderr ≠ "") := by
  have h := main_unopened sampleText ⟨0, 0, 0, 0⟩ (fun _ => none) "float_to_string"
    "missing.bin" rfl
  have he := main_run sampleText sampleText_length ⟨0, 0, 0, 0⟩ (fun _ => some [])
    "float_to_string" "missing.bin" [] rfl
  refine ⟨h, ?_, ?_⟩
  · rw [h, he]
    rfl
  · rintro ⟨o, ho, hbad⟩
    rw [h] at ho
    cases ho
    simp at hbad

/-- C6, amended: when the path given as the single argument cannot be opened, the
stream is created in the failed state, the first `read` fails, the loop body never
runs, and `main` ends with exit code 0, nothing on standard output and nothing on the
diagnostic stream. -/
theorem open_error_silent (text : float → List Byte) (f0 : float) (fs : FileSystem)
    (prog path : String) (hfile : fs path = none) :
    main text f0 fs [prog, path] = some ⟨0, [], "", [path]⟩ :=
  main_unopened text f0 fs prog path hfile

theorem open_error_silent_witness :
    main sampleText ⟨0, 0, 0, 0⟩ (fun p => if p = "in.bin" then some [0, 0, 128, 63] else none)
        ["float_to_string", "other.bin"]
      = some ⟨0, [], "", ["other.bin"]⟩ :=
  open_error_silent sampleText ⟨0, 0, 0, 0⟩ _ "float_to_string" "other.bin" (by decide)

end FloatToString
